import Mathlib

/-
Verification of the cached, store-backed vector in
`near-sdk/src/store/vec/mod.rs` (and the finalize protocol of
`near-sdk/src/store/ordered_map/impls.rs`).

Modelling conventions:
* machine integers (`u32`) are `Nat` with explicit bounds (`UMAX`);
* the host key-value store (`env::storage_read` / `storage_write` /
  `storage_remove`) is a function from byte keys to optional byte values,
  and every host call is additionally recorded as an explicit effect so
  that "performs no store read/write" claims are statable;
* fatal aborts (`env::panic`, Rust `Option::unwrap` on `None`) are
  `Except` errors;
* `BTreeMap<u32, Box<OnceCell<CacheEntry<T>>>>` is an association list of
  `(index, cell)` pairs, where a cell is `Option (CacheEntry T)` (`none`
  models a `OnceCell` that has never been initialized).  Insertion
  replaces any previous binding of the key; iteration order is the list
  order (the Rust map iterates in key order, but no claim depends on the
  order, each key being independent).
* element serialization is a parameter `ser : T -> Bytes` (assumed total,
  as the spec assumes of the external encoder) and deserialization a
  parameter `deser : Bytes -> Option T` whose failure aborts exactly as
  `deserialize_element` does.
-/

namespace NearVec


abbrev Bytes := List Nat

/-- The value of `u32::MAX`. -/
def UMAX : Nat := 4294967295

/-- `index.to_le_bytes()`: the four little-endian base-256 digits. -/
def toLe4 (n : Nat) : Bytes :=
  [n % 256, n / 256 % 256, n / 65536 % 256, n / 16777216 % 256]

/-- Modelled from the spec: `EntryState` is declared outside the shown
sources (`crate::EntryState`); the spec's data model gives the two states
`Cached` and `Modified`. -/
inductive EntryState
  | Cached
  | Modified
deriving DecidableEq

/-- Modelled from the spec: `CacheEntry` is declared outside the shown
sources (`crate::CacheEntry`): an optional value plus a state flag. -/
structure CacheEntry (T : Type) where
  value : Option T
  state : EntryState
deriving DecidableEq

/-- Modelled from the spec: construct a `Cached` entry (used after a load
from the store). -/
def CacheEntry.newCached {T : Type} (v : Option T) : CacheEntry T :=
  ⟨v, .Cached⟩

/-- Modelled from the spec: construct a `Modified` entry (used for writes
to slots never loaded). -/
def CacheEntry.newModified {T : Type} (v : Option T) : CacheEntry T :=
  ⟨v, .Modified⟩

/-- Modelled from the spec: `CacheEntry::replace(new) -> old` swaps the
option and marks the entry `Modified`. -/
def CacheEntry.replaceValue {T : Type} (e : CacheEntry T) (v : Option T) :
    Option T × CacheEntry T :=
  (e.value, ⟨v, .Modified⟩)

/-- Modelled from the spec: the assignment `*entry.value_mut() = Some(value)`
performed by `Vector::set` on an already-initialized entry.  The spec's
description of `set` requires the slot to be unconditionally marked
modified afterward ("overwrite its value and unconditionally mark it
modified"), so writing through `value_mut` leaves the entry `Modified`;
this is also forced by the flush algorithm, which would otherwise drop
the overwrite of a previously flushed (`Cached`) slot. -/
def CacheEntry.writeViaValueMut {T : Type} (_e : CacheEntry T) (v : T) :
    CacheEntry T :=
  ⟨some v, .Modified⟩

/-- Host store: byte keys to optional byte values. -/
abbrev Store := Bytes → Option Bytes

def storageWrite (st : Store) (k v : Bytes) : Store :=
  fun k2 => if k2 = k then some v else st k2

def storageRemove (st : Store) (k : Bytes) : Store :=
  fun k2 => if k2 = k then none else st k2

/-- One recorded host-store interaction. -/
inductive Eff
  | read (key : Bytes)
  | write (key : Bytes) (val : Bytes)
  | remove (key : Bytes)
deriving DecidableEq

/-- How an effect changes the store (reads change nothing). -/
def applyEff (st : Store) : Eff → Store
  | .read _ => st
  | .write k v => storageWrite st k v
  | .remove k => storageRemove st k

/-- A fatal abort: `env::panic(msg)` or a raw Rust `unwrap` on `None`. -/
inductive Err
  | hostAbort (msg : String)
  | unwrapNone
deriving DecidableEq

def errInconsistentState : String :=
  "The collection is an inconsistent state. Did previous smart contract execution terminate unexpectedly?"

def errElementDeserialization : String :=
  "Cannot deserialize element"

def errIndexOutOfBounds : String :=
  "Index out of bounds"

/-- A `OnceCell<CacheEntry<T>>`: `none` is an uninitialized cell. -/
abbrev Cell (T : Type) := Option (CacheEntry T)

/-- The `StableMap` contents: bindings from `u32` indices to cells. -/
abbrev Cache (T : Type) := List (Nat × Cell T)

/-- `BTreeMap` lookup: the binding of key `i`, if any. -/
def cacheFind {T : Type} : Cache T → Nat → Option (Cell T)
  | [], _ => none
  | kc :: rest, i => if kc.1 = i then some kc.2 else cacheFind rest i

/-- Drop every binding of key `i` (helper for insert-or-overwrite). -/
def cacheErase {T : Type} : Cache T → Nat → Cache T
  | [], _ => []
  | kc :: rest, i => if kc.1 = i then cacheErase rest i else kc :: cacheErase rest i

/-- `BTreeMap` insert-or-overwrite of the binding of key `i`. -/
def cacheInsert {T : Type} (c : Cache T) (i : Nat) (v : Cell T) : Cache T :=
  (i, v) :: cacheErase c i

/-- The in-memory `Vector<T>` state: length, key prefix, cache.
(The Rust field `prefix` is a reserved word in Lean, hence `pfx`.) -/
structure Vector (T : Type) where
  len : Nat
  pfx : Bytes
  cache : Cache T
deriving DecidableEq

/-- `Vector::new(prefix)`. -/
def Vector.new {T : Type} (pfx : Bytes) : Vector T :=
  ⟨0, pfx, []⟩

/-- `index_to_lookup_key`: `append_slice(&self.prefix, &index.to_le_bytes())`. -/
def indexToLookupKey {T : Type} (s : Vector T) (index : Nat) : Bytes :=
  s.pfx ++ toLe4 index

/-- The loader closure passed to `get_or_init`: `storage_read` then
`deserialize_element` (deserialization failure aborts). -/
def loadEntry {T : Type} (deser : Bytes → Option T) (st : Store) (k : Bytes) :
    Except Err (CacheEntry T) :=
  match st k with
  | none => .ok (CacheEntry.newCached none)
  | some bs =>
    match deser bs with
    | some v => .ok (CacheEntry.newCached (some v))
    | none => .error (.hostAbort errElementDeserialization)

/-- `Vector::get`: lazily load-and-memoize the slot, return its value.
Also returns the updated state (the cache is interior-mutable in Rust)
and the list of store effects performed. -/
def Vector.get {T : Type} (deser : Bytes → Option T) (s : Vector T)
    (st : Store) (index : Nat) :
    Except Err (Option T × Vector T × List Eff) :=
  match cacheFind s.cache index with
  | some (some e) => .ok (e.value, s, [])
  | _ =>
    match loadEntry deser st (indexToLookupKey s index) with
    | .error er => .error er
    | .ok entry =>
      .ok (entry.value,
        { s with cache := cacheInsert s.cache index (some entry) },
        [.read (indexToLookupKey s index)])

/-- `self.get_mut_inner(index).replace(newVal)`: load-or-create the slot
    (as `get_mut_inner` does), then swap its value, marking it `Modified`;
    returns the previous value. -/
def Vector.replaceAt {T : Type} (deser : Bytes → Option T) (s : Vector T)
    (st : Store) (index : Nat) (newVal : Option T) :
    Except Err (Option T × Vector T × List Eff) :=
  match cacheFind s.cache index with
  | some (some e) =>
    .ok ((e.replaceValue newVal).1,
      { s with cache := cacheInsert s.cache index (some (e.replaceValue newVal).2) },
      [])
  | _ =>
    match loadEntry deser st (indexToLookupKey s index) with
    | .error er => .error er
    | .ok entry =>
      .ok ((entry.replaceValue newVal).1,
        { s with cache := cacheInsert s.cache index (some (entry.replaceValue newVal).2) },
        [.read (indexToLookupKey s index)])

/-- `Vector::set`: bounds check, then either overwrite through
`value_mut` or initialize the cell with a `Modified` entry.  Performs no
store access. -/
def Vector.set {T : Type} (s : Vector T) (index : Nat) (v : T) :
    Except Err (Vector T) :=
  if s.len ≤ index then .error (.hostAbort errIndexOutOfBounds)
  else
    match cacheFind s.cache index with
    | some (some e) =>
      .ok { s with cache := cacheInsert s.cache index (some (e.writeViaValueMut v)) }
    | _ =>
      .ok { s with cache := cacheInsert s.cache index (some (CacheEntry.newModified (some v))) }

/-- `Vector::push`: guard `len >= u32::MAX` (panicking with the
index-out-of-bounds message), then increment the length and `set` at the
old length. -/
def Vector.push {T : Type} (s : Vector T) (v : T) : Except Err (Vector T) :=
  if UMAX ≤ s.len then .error (.hostAbort errIndexOutOfBounds)
  else Vector.set { s with len := s.len + 1 } s.len v

/-- `Vector::pop`: `None` when empty; otherwise decrement the length and
replace the old last slot's value with `None` (marking it `Modified`). -/
def Vector.pop {T : Type} (deser : Bytes → Option T) (s : Vector T)
    (st : Store) :
    Except Err (Option T × Vector T × List Eff) :=
  if s.len = 0 then .ok (none, s, [])
  else
    Vector.replaceAt deser { s with len := s.len - 1 } st (s.len - 1) none

/-- `Vector::swap`: bounds-check both indices, short-circuit on equal
indices, otherwise rotate the two slot values through three `replace`
calls (all three slots end `Modified`). -/
def Vector.swap {T : Type} (deser : Bytes → Option T) (s : Vector T)
    (st : Store) (a b : Nat) :
    Except Err (Vector T × List Eff) :=
  if s.len ≤ a ∨ s.len ≤ b then .error (.hostAbort errIndexOutOfBounds)
  else if a = b then .ok (s, [])
  else do
    let (valA, s1, e1) ← Vector.replaceAt deser s st a none
    let (valB, s2, e2) ← Vector.replaceAt deser s1 st b valA
    let (_, s3, e3) ← Vector.replaceAt deser s2 st a valB
    .ok (s3, e1 ++ e2 ++ e3)

/-- `Vector::swap_remove`: panic when empty, swap `index` with the last
slot, pop, and `expect_consistent_state` the popped value. -/
def Vector.swapRemove {T : Type} (deser : Bytes → Option T) (s : Vector T)
    (st : Store) (index : Nat) :
    Except Err (T × Vector T × List Eff) :=
  if s.len = 0 then .error (.hostAbort errIndexOutOfBounds)
  else do
    let (s1, e1) ← Vector.swap deser s st index (s.len - 1)
    let (popped, s2, e2) ← Vector.pop deser s1 st
    match popped with
    | none => .error (.hostAbort errInconsistentState)
    | some v => .ok (v, s2, e1 ++ e2)

/-- `Vector::replace`: `self.get_mut_inner(index).replace(Some(element)).unwrap()`.
Note: no bounds check; the `unwrap` is a raw Rust panic. -/
def Vector.replace {T : Type} (deser : Bytes → Option T) (s : Vector T)
    (st : Store) (index : Nat) (v : T) :
    Except Err (T × Vector T × List Eff) :=
  match Vector.replaceAt deser s st index (some v) with
  | .error er => .error er
  | .ok (old, s1, e1) =>
    match old with
    | none => .error .unwrapNone
    | some ov => .ok (ov, s1, e1)

/-- The store effects `Vector::clear` performs: a blind `storage_remove`
for every index in `[0, len)`. -/
def clearEffs {T : Type} (s : Vector T) : List Eff :=
  (List.range s.len).map (fun i => Eff.remove (indexToLookupKey s i))

/-- `Vector::clear`: remove every key under the current length from the
store, reset the length, drop the whole cache. -/
def Vector.clear {T : Type} (s : Vector T) (st : Store) :
    Vector T × Store × List Eff :=
  ({ s with len := 0, cache := [] },
   (clearEffs s).foldl applyEff st,
   clearEffs s)

/-- The store effects flushing one cache binding performs: nothing for an
uninitialized or unmodified cell; a write of the serialized value for a
`Modified` present value; a remove for a `Modified` absent value. -/
def cellFlushEffs {T : Type} (ser : T → Bytes) (pfx : Bytes)
    (kc : Nat × Cell T) : List Eff :=
  match kc.2 with
  | none => []
  | some e =>
    if e.state = .Modified then
      match e.value with
      | some v => [.write (pfx ++ toLe4 kc.1) (ser v)]
      | none => [.remove (pfx ++ toLe4 kc.1)]
    else []

/-- After a flush every initialized cell is `Cached` with its value kept
in memory (`replace_state(EntryState::Cached)`). -/
def cellAfterFlush {T : Type} : Cell T → Cell T
  | none => none
  | some e => some ⟨e.value, .Cached⟩

/-- The full effect list of `Vector::flush` (one binding at a time, in
iteration order). -/
def flushEffs {T : Type} (ser : T → Bytes) (s : Vector T) : List Eff :=
  (s.cache.map (cellFlushEffs ser s.pfx)).flatten

/-- `Vector::flush`: write every `Modified` present value, remove every
`Modified` absent value, and mark every initialized cell `Cached`. -/
def Vector.flush {T : Type} (ser : T → Bytes) (s : Vector T) (st : Store) :
    Vector T × Store × List Eff :=
  ({ s with cache := s.cache.map (fun kc => (kc.1, cellAfterFlush kc.2)) },
   (flushEffs ser s).foldl applyEff st,
   flushEffs ser s)

/-- The logical value observable at an index, phrased over a raw cache:
the cached value when the slot is initialized, otherwise whatever the
store bytes decode to. -/
def cacheSlotVal {T : Type} (deser : Bytes → Option T) (pfx : Bytes)
    (c : Cache T) (st : Store) (i : Nat) : Option T :=
  match cacheFind c i with
  | some (some e) => e.value
  | _ => (st (pfx ++ toLe4 i)).bind deser

/-- The logical value observable at an index of a vector. -/
def Vector.slotVal {T : Type} (deser : Bytes → Option T) (s : Vector T)
    (st : Store) (i : Nat) : Option T :=
  cacheSlotVal deser s.pfx s.cache st i

/-- Whether an effect can change the store at key `kk`. -/
def effTouches : Eff → Bytes → Prop
  | .read _, _ => False
  | .write k _, kk => k = kk
  | .remove k, kk => k = kk

/-- A concrete element type for witness runs: `Nat`, serialized as a
singleton byte list. -/
def serNat : Nat → Bytes := fun n => [n]

def deserNat : Bytes → Option Nat := fun b =>
  match b with
  | [n] => some n
  | _ => none

/-- An empty backing store. -/
def st0 : Store := fun _ => none

/-- The value `get` observes (discarding the memoization side effect). -/
def Vector.getVal {T : Type} (deser : Bytes → Option T) (s : Vector T)
    (st : Store) (i : Nat) : Except Err (Option T) :=
  (Vector.get deser s st i).map (fun r => r.1)

/-- The public mutating operations a client can run (plus flush). -/
inductive Op (T : Type) where
  | push (v : T)
  | pop
  | set (i : Nat) (v : T)
  | swapRemove (i : Nat)
  | replace (i : Nat) (v : T)
  | flush

/-- One operation, as a state transformer over vector and store. -/
def runOp {T : Type} (ser : T → Bytes) (deser : Bytes → Option T)
    (s : Vector T) (st : Store) : Op T → Except Err (Vector T × Store)
  | .push v => (Vector.push s v).map (fun s2 => (s2, st))
  | .pop => (Vector.pop deser s st).map (fun r => (r.2.1, st))
  | .set i v => (Vector.set s i v).map (fun s2 => (s2, st))
  | .swapRemove i => (Vector.swapRemove deser s st i).map (fun r => (r.2.1, st))
  | .replace i v => (Vector.replace deser s st i v).map (fun r => (r.2.1, st))
  | .flush => .ok ((Vector.flush ser s st).1, (Vector.flush ser s st).2.1)

/-- In Rust every index argument has type `u32`; the model records that
bound on the operations that take an index. -/
def opArgsOk {T : Type} : Op T → Prop
  | .set i _ => i < 4294967296
  | .swapRemove i => i < 4294967296
  | .replace i _ => i < 4294967296
  | _ => True

/-- States reachable from a fresh vector over a store holding nothing
under the vector's key prefix, by successful runs of the operations. -/
inductive Reach {T : Type} (ser : T → Bytes) (deser : Bytes → Option T)
    (pfx : Bytes) : Vector T → Store → Prop
  | init (st0 : Store) (h0 : ∀ i, i < 4294967296 → st0 (pfx ++ toLe4 i) = none) :
      Reach ser deser pfx (Vector.new pfx) st0
  | step (s : Vector T) (st : Store) (op : Op T) (s' : Vector T) (st' : Store) :
      Reach ser deser pfx s st → opArgsOk op →
      runOp ser deser s st op = .ok (s', st') →
      Reach ser deser pfx s' st'

/-- The inductive invariant: the length is a `u32`, cache keys are
`u32`s, every cache slot at or beyond the length holds no value, and a
store key at or beyond the length can only exist while a `Modified`
absent cache slot is pending its removal. -/
def Jinv {T : Type} (pfx : Bytes) (s : Vector T) (st : Store) : Prop :=
  s.pfx = pfx ∧
  s.len ≤ UMAX ∧
  (∀ kc ∈ s.cache, kc.1 < 4294967296) ∧
  (∀ kc ∈ s.cache, ∀ e : CacheEntry T, s.len ≤ kc.1 → kc.2 = some e → e.value = none) ∧
  (∀ i, i < 4294967296 → s.len ≤ i → st (pfx ++ toLe4 i) ≠ none →
    ∃ e : CacheEntry T, cacheFind s.cache i = some (some e) ∧
      e.value = none ∧ e.state = .Modified)

/-- The states of the run `push 7; flush; pop; clear` on a fresh vector
over the empty store (element type `Nat`). -/
def c3s1 : Vector Nat := ⟨1, [118], [(0, some ⟨some 7, .Modified⟩)]⟩

def c3s2 : Vector Nat := ⟨1, [118], [(0, some ⟨some 7, .Cached⟩)]⟩

def c3st2 : Store := storageWrite st0 [118, 0, 0, 0, 0] [7]

def c3s3 : Vector Nat := ⟨0, [118], [(0, some ⟨none, .Modified⟩)]⟩

def c3s4 : Vector Nat := ⟨0, [118], []⟩

/-! ### Basic lemmas about the cache association list -/

theorem cacheFind_insert_self {T : Type} (c : Cache T) (i : Nat) (v : Cell T) :
    cacheFind (cacheInsert c i v) i = some v := by
  simp [cacheInsert, cacheFind]

theorem cacheFind_erase_ne {T : Type} (c : Cache T) (i j : Nat) (h : j ≠ i) :
    cacheFind (cacheErase c i) j = cacheFind c j := by
  induction c with
  | nil => rfl
  | cons kc rest ih =>
    by_cases hk : kc.1 = i
    · have hkj : kc.1 ≠ j := by omega
      simp [cacheErase, cacheFind, hk, hkj, ih, Ne.symm h]
    · by_cases hkj : kc.1 = j
      · simp [cacheErase, cacheFind, hk, hkj, h]
      · simp [cacheErase, cacheFind, hk, hkj, ih]

theorem cacheFind_insert_ne {T : Type} (c : Cache T) (i j : Nat) (v : Cell T)
    (h : j ≠ i) : cacheFind (cacheInsert c i v) j = cacheFind c j := by
  have h2 : i ≠ j := fun hh => h hh.symm
  simp [cacheInsert, cacheFind, h2, cacheFind_erase_ne c i j h]

theorem mem_cacheErase {T : Type} {c : Cache T} {i : Nat} {kc : Nat × Cell T} :
    kc ∈ cacheErase c i ↔ kc ∈ c ∧ kc.1 ≠ i := by
  induction c with
  | nil => simp [cacheErase]
  | cons hd rest ih =>
    by_cases hk : hd.1 = i
    · simp only [cacheErase, if_pos hk, ih, List.mem_cons]
      constructor
      · rintro ⟨h1, h2⟩
        exact ⟨Or.inr h1, h2⟩
      · rintro ⟨h1 | h1, h2⟩
        · exact absurd (h1 ▸ hk) h2
        · exact ⟨h1, h2⟩
    · simp only [cacheErase, if_neg hk, List.mem_cons, ih]
      constructor
      · rintro (h1 | ⟨h1, h2⟩)
        · exact ⟨Or.inl h1, h1 ▸ hk⟩
        · exact ⟨Or.inr h1, h2⟩
      · rintro ⟨h1 | h1, h2⟩
        · exact Or.inl h1
        · exact Or.inr ⟨h1, h2⟩

theorem mem_cacheInsert {T : Type} {c : Cache T} {i : Nat} {v : Cell T}
    {kc : Nat × Cell T} :
    kc ∈ cacheInsert c i v ↔ kc = (i, v) ∨ (kc ∈ c ∧ kc.1 ≠ i) := by
  simp [cacheInsert, List.mem_cons, mem_cacheErase]

theorem cacheFind_mem {T : Type} {c : Cache T} {i : Nat} {cell : Cell T}
    (h : cacheFind c i = some cell) : (i, cell) ∈ c := by
  induction c with
  | nil => simp [cacheFind] at h
  | cons kc rest ih =>
    by_cases hk : kc.1 = i
    · simp only [cacheFind, if_pos hk, Option.some.injEq] at h
      subst hk
      subst h
      simp
    · simp only [cacheFind, if_neg hk] at h
      exact List.mem_cons_of_mem kc (ih h)

theorem cacheFind_eq_none_not_mem {T : Type} {c : Cache T} {i : Nat}
    (h : cacheFind c i = none) : ∀ cell, (i, cell) ∉ c := by
  induction c with
  | nil => simp
  | cons kc rest ih =>
    by_cases hk : kc.1 = i
    · simp [cacheFind, hk] at h
    · simp only [cacheFind, if_neg hk] at h
      intro cell hmem
      rcases List.mem_cons.1 hmem with h1 | h1
      · exact hk (congrArg Prod.fst h1.symm)
      · exact ih h cell h1

theorem cacheFind_map {T : Type} (c : Cache T) (g : Cell T → Cell T) (i : Nat) :
    cacheFind (c.map (fun kc => (kc.1, g kc.2))) i = (cacheFind c i).map g := by
  induction c with
  | nil => rfl
  | cons kc rest ih =>
    by_cases hk : kc.1 = i
    · simp [cacheFind, hk]
    · simp [cacheFind, hk, ih]

/-! ### Injectivity of the index-to-key encoding -/

theorem toLe4_inj {i j : Nat} (hi : i < 4294967296) (hj : j < 4294967296)
    (h : toLe4 i = toLe4 j) : i = j := by
  simp [toLe4] at h
  omega

theorem lookupKey_inj {T : Type} (s : Vector T) {i j : Nat}
    (hi : i < 4294967296) (hj : j < 4294967296)
    (h : indexToLookupKey s i = indexToLookupKey s j) : i = j := by
  apply toLe4_inj hi hj
  exact List.append_cancel_left h

theorem foldl_applyEff_no_touch (effs : List Eff) (st : Store) (K : Bytes)
    (h : ∀ e ∈ effs, ¬ effTouches e K) :
    effs.foldl applyEff st K = st K := by
  induction effs generalizing st with
  | nil => rfl
  | cons e rest ih =>
    rw [List.foldl_cons, ih _ (fun x hx => h x (List.mem_cons_of_mem e hx))]
    cases e with
    | read k => rfl
    | write k v =>
      have hne : ¬ effTouches (Eff.write k v) K := h _ (List.mem_cons_self _ _)
      simp only [effTouches] at hne
      simp only [applyEff, storageWrite]
      rw [if_neg (fun hh => hne hh.symm)]
    | remove k =>
      have hne : ¬ effTouches (Eff.remove k) K := h _ (List.mem_cons_self _ _)
      simp only [effTouches] at hne
      simp only [applyEff, storageRemove]
      rw [if_neg (fun hh => hne hh.symm)]

theorem foldl_applyEff_none (effs : List Eff) (st : Store) (K : Bytes)
    (hw : ∀ e ∈ effs, ∀ b, e ≠ .write K b)
    (h : st K = none ∨ Eff.remove K ∈ effs) :
    effs.foldl applyEff st K = none := by
  induction effs generalizing st with
  | nil =>
    rcases h with h | h
    · exact h
    · simp at h
  | cons e rest ih =>
    rw [List.foldl_cons]
    apply ih _ (fun x hx b => hw x (List.mem_cons_of_mem e hx) b)
    rcases h with h | h
    · left
      cases e with
      | read k => exact h
      | write k v =>
        have hk : k ≠ K :=
          fun hh => hw _ (List.mem_cons_self _ _) v (by rw [hh])
        simp only [applyEff, storageWrite]
        rw [if_neg (fun hh => hk hh.symm)]
        exact h
      | remove k =>
        simp only [applyEff, storageRemove]
        by_cases hk : K = k
        · rw [if_pos hk]
        · rw [if_neg hk]
          exact h
    · rcases List.mem_cons.1 h with h1 | h1
      · left
        rw [← h1]
        simp [applyEff, storageRemove]
      · exact Or.inr h1

theorem foldl_applyEff_write (l1 l2 : List Eff) (st : Store) (K b : Bytes)
    (h2 : ∀ e ∈ l2, ¬ effTouches e K) :
    ((l1 ++ .write K b :: l2).foldl applyEff st) K = some b := by
  rw [List.foldl_append, List.foldl_cons]
  rw [foldl_applyEff_no_touch l2 _ _ h2]
  simp [applyEff, storageWrite]

theorem key_inj (pfx : Bytes) {i j : Nat}
    (hi : i < 4294967296) (hj : j < 4294967296)
    (h : pfx ++ toLe4 i = pfx ++ toLe4 j) : i = j :=
  toLe4_inj hi hj (List.append_cancel_left h)

/-- Every effect emitted when flushing one binding targets that binding's
lookup key. -/
theorem eff_in_cellFlushEffs {T : Type} (ser : T → Bytes) (pfx : Bytes)
    (kc : Nat × Cell T) (e : Eff) (he : e ∈ cellFlushEffs ser pfx kc) :
    (∃ b, e = .write (pfx ++ toLe4 kc.1) b) ∨ e = .remove (pfx ++ toLe4 kc.1) := by
  unfold cellFlushEffs at he
  rcases kc with ⟨k, _ | e0⟩
  · simp at he
  · simp only at he
    by_cases hst : e0.state = EntryState.Modified
    · rw [if_pos hst] at he
      rcases hv : e0.value with _ | v
      · rw [hv] at he
        simp at he
        exact Or.inr he
      · rw [hv] at he
        simp at he
        exact Or.inl ⟨ser v, he⟩
    · rw [if_neg hst] at he
      simp at he

theorem mem_flushEffs {T : Type} {ser : T → Bytes} {s : Vector T} {e : Eff}
    (h : e ∈ flushEffs ser s) :
    ∃ kc ∈ s.cache, e ∈ cellFlushEffs ser s.pfx kc := by
  unfold flushEffs at h
  rcases List.mem_flatten.1 h with ⟨l, hl, hel⟩
  rcases List.mem_map.1 hl with ⟨kc, hkc, rfl⟩
  exact ⟨kc, hkc, hel⟩

/-- Flushing a list of bindings whose keys all differ from `i` never
touches `i`'s lookup key. -/
theorem no_touch_flushEffs_away {T : Type} (ser : T → Bytes) (pfx : Bytes)
    (entries : List (Nat × Cell T)) (i : Nat) (hi32 : i < 4294967296)
    (hkeys : ∀ kc ∈ entries, kc.1 < 4294967296 ∧ kc.1 ≠ i) :
    ∀ e ∈ (entries.map (cellFlushEffs ser pfx)).flatten,
      ¬ effTouches e (pfx ++ toLe4 i) := by
  intro e he ht
  rcases List.mem_flatten.1 he with ⟨l, hl, hel⟩
  rcases List.mem_map.1 hl with ⟨kc, hkc, rfl⟩
  rcases eff_in_cellFlushEffs ser pfx kc e hel with ⟨b, rfl⟩ | rfl
  · exact (hkeys kc hkc).2 (key_inj pfx (hkeys kc hkc).1 hi32 ht)
  · exact (hkeys kc hkc).2 (key_inj pfx (hkeys kc hkc).1 hi32 ht)

/-- C1: for every vector and every index below the length, `set(index, value)`
succeeds and leaves the cache slot at that index in state `Modified`
holding the new value — whether or not a slot already existed and whatever
its prior state — so that the next flush writes the new value to the
store under that index's lookup key. -/
theorem c1_set_marks_slot_modified {T : Type} (ser : T → Bytes)
    (s : Vector T) (st : Store) (i : Nat) (v : T)
    (hi : i < s.len) (hlen : s.len ≤ UMAX)
    (hkeys : ∀ kc ∈ s.cache, kc.1 < 4294967296) :
    ∃ s', Vector.set s i v = .ok s' ∧
      cacheFind s'.cache i = some (some ⟨some v, .Modified⟩) ∧
      (Vector.flush ser s' st).2.1 (indexToLookupKey s i) = some (ser v) := by
  have hi32 : i < 4294967296 := by
    have := UMAX
    unfold UMAX at hlen
    omega
  have hguard : ¬ (s.len ≤ i) := by omega
  have hset : Vector.set s i v =
      .ok { s with cache := cacheInsert s.cache i (some ⟨some v, .Modified⟩) } := by
    unfold Vector.set
    rw [if_neg hguard]
    split
    · rfl
    · rfl
  refine ⟨_, hset, cacheFind_insert_self _ _ _, ?_⟩
  show (flushEffs ser _).foldl applyEff st (indexToLookupKey s i) = some (ser v)
  have hflush : flushEffs ser
      { s with cache := cacheInsert s.cache i (some ⟨some v, .Modified⟩) } =
      Eff.write (s.pfx ++ toLe4 i) (ser v) ::
        ((cacheErase s.cache i).map (cellFlushEffs ser s.pfx)).flatten := by
    simp [flushEffs, cacheInsert, cellFlushEffs]
  rw [hflush]
  have := foldl_applyEff_write [] (((cacheErase s.cache i).map (cellFlushEffs ser s.pfx)).flatten)
    st (s.pfx ++ toLe4 i) (ser v) ?_
  · exact this
  · apply no_touch_flushEffs_away ser s.pfx (cacheErase s.cache i) i hi32
    intro kc hkc
    rcases mem_cacheErase.1 hkc with ⟨hmem, hne⟩
    exact ⟨hkeys kc hmem, hne⟩

/-- C1 witness: a concrete run of the theorem on a one-element vector
with an uncached slot. -/
theorem c1_witness :
    (0 : Nat) < (1 : Nat) ∧
    (∃ s', Vector.set (⟨1, [118], []⟩ : Vector Nat) 0 7 = .ok s' ∧
      cacheFind s'.cache 0 = some (some ⟨some 7, .Modified⟩) ∧
      (Vector.flush serNat s' st0).2.1 (indexToLookupKey (⟨1, [118], []⟩ : Vector Nat) 0) =
        some (serNat 7)) :=
  ⟨by decide,
   c1_set_marks_slot_modified serNat ⟨1, [118], []⟩ st0 0 7 (by decide)
     (by decide) (by decide)⟩

/-- C2 counterexample: on a fresh vector of length 0 over an empty store,
`get 0` does perform a store read (the effect list is exactly one read of
the index-0 lookup key) and does add a cache entry memoizing the miss —
refuting the claim that such a call touches neither cache nor store. -/
theorem c2_counterexample :
    Vector.get deserNat (Vector.new [118]) st0 0 =
      .ok (none, ⟨0, [118], [(0, some ⟨none, .Cached⟩)]⟩,
           [Eff.read [118, 0, 0, 0, 0]]) ∧
    ([Eff.read [118, 0, 0, 0, 0]] : List Eff) ≠ [] := by
  constructor
  · rfl
  · decide

/-- C2 amended: for every index at or beyond the length, `get` returns
`None` provided the store holds nothing under that index's key and any
initialized cache slot there is value-free (both guaranteed for states
the flush invariant holds of); however the call may read the store and
memoize the absent entry rather than leaving cache and store untouched. -/
theorem c2_get_beyond_len_none {T : Type} (deser : Bytes → Option T)
    (s : Vector T) (st : Store) (i : Nat)
    (_hi : s.len ≤ i)
    (hstore : st (indexToLookupKey s i) = none)
    (hcache : ∀ e, cacheFind s.cache i = some (some e) → e.value = none) :
    (Vector.get deser s st i).toOption.map (fun r => r.1) = some none := by
  have hload : loadEntry deser st (indexToLookupKey s i) =
      .ok (CacheEntry.newCached none) := by
    unfold loadEntry
    rw [hstore]
  unfold Vector.get
  rcases hfind : cacheFind s.cache i with _ | cell
  · simp only [hload]
    rfl
  · rcases cell with _ | e
    · simp only [hload]
      rfl
    · have hv := hcache e hfind
      simp [Except.toOption, hv]

/-- C2 amended witness: concrete run at index = length on a fresh vector. -/
theorem c2_witness :
    (Vector.new [118] : Vector Nat).len ≤ 0 ∧
    st0 (indexToLookupKey (Vector.new [118] : Vector Nat) 0) = none ∧
    (Vector.get deserNat (Vector.new [118]) st0 0).toOption.map (fun r => r.1) =
      some none :=
  ⟨by decide, rfl,
   c2_get_beyond_len_none deserNat (Vector.new [118]) st0 0 (by decide) rfl
     (by intro e he; simp [cacheFind, Vector.new] at he)⟩

/-- C4 counterexample: `replace 0` on a fresh empty vector over an empty
store aborts through the raw `Option::unwrap` on `None`, not with the
`IndexOutOfBounds` abort that `set`/`swap`/`swap_remove` raise: `replace`
performs no bounds check at all. -/
theorem c4_counterexample :
    Vector.replace deserNat (Vector.new [118]) st0 0 5 = .error .unwrapNone ∧
    Err.unwrapNone ≠ .hostAbort errIndexOutOfBounds := by
  constructor
  · rfl
  · decide

/-- C4 amended: for an index at or beyond the length (in a state where
the store holds nothing under that key and any cached slot there is
value-free), `replace` aborts — but through the raw unwrap of the absent
previous value, not with the `IndexOutOfBounds` error, since it performs
no bounds check. -/
theorem c4_replace_beyond_len_unwraps {T : Type} (deser : Bytes → Option T)
    (s : Vector T) (st : Store) (i : Nat) (v : T)
    (_hi : s.len ≤ i)
    (hstore : st (indexToLookupKey s i) = none)
    (hcache : ∀ e, cacheFind s.cache i = some (some e) → e.value = none) :
    Vector.replace deser s st i v = .error .unwrapNone := by
  unfold Vector.replace Vector.replaceAt
  rcases hfind : cacheFind s.cache i with _ | cell
  · unfold loadEntry
    rw [hstore]
    rfl
  · rcases cell with _ | e
    · unfold loadEntry
      rw [hstore]
      rfl
    · have hv : e.value = none := hcache e hfind
      simp [CacheEntry.replaceValue, hv]

/-- C4 amended witness: concrete run at index 0 on a fresh empty vector. -/
theorem c4_witness :
    (Vector.new [118] : Vector Nat).len ≤ 0 ∧
    Vector.replace deserNat (Vector.new [118]) st0 0 5 = .error .unwrapNone :=
  ⟨by decide,
   c4_replace_beyond_len_unwraps deserNat (Vector.new [118]) st0 0 5 (by decide)
     rfl (by intro e he; simp [cacheFind, Vector.new] at he)⟩

/-- C5 counterexample: `push` on a vector whose length is `u32::MAX`
aborts with exactly the same `Index out of bounds` abort that an
out-of-range `set` raises — there is no distinct `CapacityExceeded`
error kind in the code. -/
theorem c5_counterexample :
    Vector.push (⟨UMAX, [118], []⟩ : Vector Nat) 7 =
      .error (.hostAbort errIndexOutOfBounds) ∧
    Vector.set (⟨0, [118], []⟩ : Vector Nat) 0 7 =
      .error (.hostAbort errIndexOutOfBounds) := by
  constructor
  · rfl
  · rfl

/-- C5 amended: `push` at `length == u32::MAX` fails with the same
`IndexOutOfBounds` abort used for out-of-range accesses (not a distinct
capacity error); for every length below `u32::MAX` it succeeds,
increments the length, and stores the element at the old length (as a
`Modified` cache slot awaiting flush). -/
theorem c5_push_spec {T : Type} (s : Vector T) (v : T) :
    (s.len = UMAX → Vector.push s v = .error (.hostAbort errIndexOutOfBounds)) ∧
    (s.len < UMAX → ∃ s', Vector.push s v = .ok s' ∧ s'.len = s.len + 1 ∧
      cacheFind s'.cache s.len = some (some ⟨some v, .Modified⟩)) := by
  constructor
  · intro hmax
    unfold Vector.push
    rw [if_pos (le_of_eq hmax.symm)]
  · intro hlt
    unfold Vector.push
    rw [if_neg (by omega)]
    unfold Vector.set
    rw [if_neg (by simp)]
    split
    · exact ⟨_, rfl, rfl, cacheFind_insert_self _ _ _⟩
    · exact ⟨_, rfl, rfl, cacheFind_insert_self _ _ _⟩

/-- C5 amended witness: both branches at concrete inputs (length
`u32::MAX` and length 0). -/
theorem c5_witness :
    Vector.push (⟨UMAX, [118], []⟩ : Vector Nat) 7 =
      .error (.hostAbort errIndexOutOfBounds) ∧
    (∃ s', Vector.push (Vector.new [118] : Vector Nat) 7 = .ok s' ∧
      s'.len = (Vector.new [118] : Vector Nat).len + 1 ∧
      cacheFind s'.cache (Vector.new [118] : Vector Nat).len =
        some (some ⟨some 7, .Modified⟩)) :=
  ⟨(c5_push_spec (⟨UMAX, [118], []⟩ : Vector Nat) 7).1 rfl,
   (c5_push_spec (Vector.new [118] : Vector Nat) 7).2 (by decide)⟩

/-- `set` below the length always succeeds and installs a `Modified`
entry holding the new value (whatever the prior cell was). -/
theorem set_eq_of_lt {T : Type} (s : Vector T) (i : Nat) (v : T)
    (hi : i < s.len) :
    Vector.set s i v =
      .ok { s with cache := cacheInsert s.cache i (some ⟨some v, .Modified⟩) } := by
  unfold Vector.set
  rw [if_neg (by omega)]
  split
  · rfl
  · rfl

/-- `get_mut_inner(i).replace(nv)` on an already-initialized slot: no
store effect, returns the old cached value. -/
theorem replaceAt_hit {T : Type} (deser : Bytes → Option T) (s : Vector T)
    (st : Store) (i : Nat) (nv : Option T) (e : CacheEntry T)
    (hfind : cacheFind s.cache i = some (some e)) :
    Vector.replaceAt deser s st i nv =
      .ok (e.value, { s with cache := cacheInsert s.cache i (some ⟨nv, .Modified⟩) }, []) := by
  unfold Vector.replaceAt
  rw [hfind]
  rfl

/-! ### C8: the loader runs at most once per key -/

theorem countP_cacheErase_self {T : Type} (c : Cache T) (i : Nat) :
    (cacheErase c i).countP (fun kc => kc.1 == i) = 0 := by
  induction c with
  | nil => rfl
  | cons kc rest ih =>
    by_cases hk : kc.1 = i
    · simp [cacheErase, hk, ih]
    · simp [cacheErase, hk, ih, List.countP_cons]

theorem countP_cacheInsert_self {T : Type} (c : Cache T) (i : Nat) (v : Cell T) :
    (cacheInsert c i v).countP (fun kc => kc.1 == i) = 1 := by
  simp [cacheInsert, List.countP_cons, countP_cacheErase_self]

/-- C8: the lookup-or-create path runs the loader at most once per index:
once a first `get` has loaded index `i`, a second `get` with no
intervening mutation performs no store effect at all (in particular no
read), returns the same value, leaves the state identical, and the cache
holds at most one entry for the index. -/
theorem c8_get_memoizes {T : Type} (deser : Bytes → Option T) (s : Vector T)
    (st : Store) (i : Nat) (v1 : Option T) (s1 : Vector T) (e1 : List Eff)
    (h1 : Vector.get deser s st i = .ok (v1, s1, e1))
    (hcount : s.cache.countP (fun kc => kc.1 == i) ≤ 1) :
    Vector.get deser s1 st i = .ok (v1, s1, []) ∧
    s1.cache.countP (fun kc => kc.1 == i) ≤ 1 := by
  unfold Vector.get at h1
  rcases hfind : cacheFind s.cache i with _ | cell
  · rw [hfind] at h1
    rcases hload : loadEntry deser st (indexToLookupKey s i) with er | entry
    · rw [hload] at h1
      exact absurd h1 (by simp)
    · rw [hload] at h1
      simp only [Except.ok.injEq, Prod.mk.injEq] at h1
      obtain ⟨hv, hs, he⟩ := h1
      subst hv hs he
      constructor
      · unfold Vector.get
        rw [cacheFind_insert_self]
      · rw [countP_cacheInsert_self]
  · rcases cell with _ | e
    · rw [hfind] at h1
      rcases hload : loadEntry deser st (indexToLookupKey s i) with er | entry
      · rw [hload] at h1
        exact absurd h1 (by simp)
      · rw [hload] at h1
        simp only [Except.ok.injEq, Prod.mk.injEq] at h1
        obtain ⟨hv, hs, he⟩ := h1
        subst hv hs he
        constructor
        · unfold Vector.get
          rw [cacheFind_insert_self]
        · rw [countP_cacheInsert_self]
    · rw [hfind] at h1
      simp only [Except.ok.injEq, Prod.mk.injEq] at h1
      obtain ⟨hv, hs, he⟩ := h1
      subst hv hs he
      constructor
      · unfold Vector.get
        rw [hfind]
      · exact hcount

/-- C8 witness: two consecutive `get 0` calls on a fresh vector over the
empty store; the first loads, the second is answered from the cache. -/
theorem c8_witness :
    Vector.get deserNat (Vector.new [118]) st0 0 =
      .ok (none, ⟨0, [118], [(0, some ⟨none, .Cached⟩)]⟩, [.read [118, 0, 0, 0, 0]]) ∧
    (Vector.get deserNat (⟨0, [118], [(0, some ⟨none, .Cached⟩)]⟩ : Vector Nat) st0 0 =
      .ok (none, ⟨0, [118], [(0, some ⟨none, .Cached⟩)]⟩, []) ∧
    ((⟨0, [118], [(0, some ⟨none, .Cached⟩)]⟩ : Vector Nat)).cache.countP
      (fun kc => kc.1 == 0) ≤ 1) :=
  ⟨rfl,
   c8_get_memoizes deserNat (Vector.new [118]) st0 0 none
     ⟨0, [118], [(0, some ⟨none, .Cached⟩)]⟩ [.read [118, 0, 0, 0, 0]] rfl
     (by decide)⟩

/-- C10: pushing onto a never-loaded slot and popping it back with no
flush in between leaves a `Modified`-absent slot; the next flush then
issues a `storage_remove` for that index's key even though no
`storage_write` for that key is ever issued (push and pop perform no
store effect at all here). -/
theorem c10_push_pop_flush_removes {T : Type} (ser : T → Bytes)
    (deser : Bytes → Option T) (s : Vector T) (st : Store) (v : T)
    (_hnew : cacheFind s.cache s.len = none)
    (hlen : s.len < UMAX)
    (hkeys : ∀ kc ∈ s.cache, kc.1 < 4294967296) :
    ∃ s1 s2, Vector.push s v = .ok s1 ∧
      Vector.pop deser s1 st = .ok (some v, s2, []) ∧
      Eff.remove (indexToLookupKey s s.len) ∈ flushEffs ser s2 ∧
      ∀ b, Eff.write (indexToLookupKey s s.len) b ∉ flushEffs ser s2 := by
  have hlen32 : s.len < 4294967296 := by
    unfold UMAX at hlen
    omega
  refine ⟨⟨s.len + 1, s.pfx, cacheInsert s.cache s.len (some ⟨some v, .Modified⟩)⟩, ⟨s.len, s.pfx, cacheInsert (cacheInsert s.cache s.len (some ⟨some v, .Modified⟩)) s.len (some ⟨none, .Modified⟩)⟩, ?_, ?_, ?_, ?_⟩
  · unfold Vector.push
    rw [if_neg (Nat.not_le.mpr hlen)]
    exact set_eq_of_lt (⟨s.len + 1, s.pfx, s.cache⟩ : Vector T) s.len v
      (Nat.lt_succ_self s.len)
  · unfold Vector.pop
    rw [if_neg (show ¬ ((⟨s.len + 1, s.pfx, cacheInsert s.cache s.len (some ⟨some v, .Modified⟩)⟩ : Vector T).len = 0) from Nat.succ_ne_zero s.len)]
    exact replaceAt_hit deser
      (⟨s.len, s.pfx, cacheInsert s.cache s.len (some ⟨some v, .Modified⟩)⟩ : Vector T)
      st s.len none ⟨some v, .Modified⟩ (cacheFind_insert_self _ _ _)
  · have hshape : flushEffs ser
        (⟨s.len, s.pfx, cacheInsert (cacheInsert s.cache s.len (some ⟨some v, .Modified⟩)) s.len (some ⟨none, .Modified⟩)⟩ : Vector T) =
        Eff.remove (s.pfx ++ toLe4 s.len) ::
          ((cacheErase (cacheInsert s.cache s.len (some ⟨some v, .Modified⟩)) s.len).map
            (cellFlushEffs ser s.pfx)).flatten := by
      simp [flushEffs, cacheInsert, cellFlushEffs]
    rw [hshape]
    exact List.mem_cons_self _ _
  · intro b hb
    have hshape : flushEffs ser
        (⟨s.len, s.pfx, cacheInsert (cacheInsert s.cache s.len (some ⟨some v, .Modified⟩)) s.len (some ⟨none, .Modified⟩)⟩ : Vector T) =
        Eff.remove (s.pfx ++ toLe4 s.len) ::
          ((cacheErase (cacheInsert s.cache s.len (some ⟨some v, .Modified⟩)) s.len).map
            (cellFlushEffs ser s.pfx)).flatten := by
      simp [flushEffs, cacheInsert, cellFlushEffs]
    rw [hshape] at hb
    rcases List.mem_cons.1 hb with h1 | h1
    · exact absurd h1 (by simp)
    · have hnt := no_touch_flushEffs_away ser s.pfx
        (cacheErase (cacheInsert s.cache s.len (some ⟨some v, .Modified⟩)) s.len)
        s.len hlen32 ?_ _ h1
      · exact hnt rfl
      · intro kc hkc
        rcases mem_cacheErase.1 hkc with ⟨hmem, hne⟩
        rcases mem_cacheInsert.1 hmem with h2 | ⟨h2, _⟩
        · exact absurd (congrArg Prod.fst h2) hne
        · exact ⟨hkeys kc h2, hne⟩

/-- C10 witness: concrete run on a fresh vector. -/
theorem c10_witness :
    ∃ s1 s2, Vector.push (Vector.new [118] : Vector Nat) 7 = .ok s1 ∧
      Vector.pop deserNat s1 st0 = .ok (some 7, s2, []) ∧
      Eff.remove (indexToLookupKey (Vector.new [118] : Vector Nat) 0) ∈
        flushEffs serNat s2 ∧
      ∀ b, Eff.write (indexToLookupKey (Vector.new [118] : Vector Nat) 0) b ∉
        flushEffs serNat s2 :=
  c10_push_pop_flush_removes serNat deserNat (Vector.new [118]) st0 7 rfl
    (by decide) (by decide)

/-- `get` on an initialized slot: answered from the cache, no effects. -/
theorem get_hit {T : Type} (deser : Bytes → Option T) (s : Vector T)
    (st : Store) (i : Nat) (e : CacheEntry T)
    (hfind : cacheFind s.cache i = some (some e)) :
    Vector.get deser s st i = .ok (e.value, s, []) := by
  unfold Vector.get
  rw [hfind]

/-- After mapping `cellAfterFlush` over the cache, no binding emits any
flush effect (everything is `Cached`). -/
theorem flushEffs_flushed {T : Type} (ser : T → Bytes) (pfx : Bytes)
    (c : Cache T) :
    ((c.map (fun kc => (kc.1, cellAfterFlush kc.2))).map
      (cellFlushEffs ser pfx)).flatten = [] := by
  induction c with
  | nil => rfl
  | cons kc rest ih =>
    rcases kc with ⟨k, _ | e⟩
    · simpa [cellAfterFlush, cellFlushEffs] using ih
    · simpa [cellAfterFlush, cellFlushEffs] using ih

/-- With duplicate-free keys, membership determines the lookup result. -/
theorem cacheFind_of_mem_nodup {T : Type} {c : Cache T}
    (hnodup : (c.map Prod.fst).Nodup) {i : Nat} {cell : Cell T}
    (h : (i, cell) ∈ c) : cacheFind c i = some cell := by
  induction c with
  | nil => simp at h
  | cons kc rest ih =>
    simp only [List.map_cons, List.nodup_cons] at hnodup
    rcases List.mem_cons.1 h with h1 | h1
    · rw [← h1]
      simp [cacheFind]
    · have hk : kc.1 ≠ i := by
        intro hh
        apply hnodup.1
        rw [hh]
        exact List.mem_map_of_mem Prod.fst h1
      rw [cacheFind, if_neg hk]
      exact ih hnodup.2 h1

/-- If every binding of key `i` is an uninitialized cell, flushing never
touches `i`'s lookup key in the store. -/
theorem flush_no_touch_of_uninit {T : Type} (ser : T → Bytes) (s : Vector T)
    (st : Store) (i : Nat) (hi32 : i < 4294967296)
    (hkeys : ∀ kc ∈ s.cache, kc.1 < 4294967296)
    (hcell : ∀ cell, (i, cell) ∈ s.cache → cell = none) :
    ((flushEffs ser s).foldl applyEff st) (indexToLookupKey s i) =
      st (indexToLookupKey s i) := by
  apply foldl_applyEff_no_touch
  intro e he ht
  rcases mem_flushEffs he with ⟨⟨k, cell⟩, hkc, hcellmem⟩
  have hkK : s.pfx ++ toLe4 k = indexToLookupKey s i := by
    rcases eff_in_cellFlushEffs ser s.pfx (k, cell) e hcellmem with ⟨b, rfl⟩ | rfl
    · exact ht
    · exact ht
  have hki : k = i := key_inj s.pfx (hkeys _ hkc) hi32 hkK
  subst hki
  have hc := hcell cell hkc
  subst hc
  simp [cellFlushEffs] at hcellmem

/-- C6: calling flush twice with no mutation in between performs zero
store effects the second time, and the value observable through `get` at
every index is unchanged by a flush. -/
theorem c6_flush_idempotent {T : Type} (ser : T → Bytes)
    (deser : Bytes → Option T) (s : Vector T) (st : Store)
    (hkeys : ∀ kc ∈ s.cache, kc.1 < 4294967296)
    (hnodup : (s.cache.map Prod.fst).Nodup) :
    (Vector.flush ser (Vector.flush ser s st).1 ((Vector.flush ser s st).2.1)).2.2 = [] ∧
    ∀ i, i < 4294967296 →
      Vector.getVal deser (Vector.flush ser s st).1 ((Vector.flush ser s st).2.1) i =
        Vector.getVal deser s st i := by
  constructor
  · show flushEffs ser (Vector.flush ser s st).1 = []
    exact flushEffs_flushed ser s.pfx s.cache
  · intro i hi32
    rcases hfind : cacheFind s.cache i with _ | (_ | e)
    · -- never observed: both sides load, and the flush left this key alone
      have h2 : cacheFind ((Vector.flush ser s st).1).cache i = none := by
        show cacheFind (s.cache.map (fun kc => (kc.1, cellAfterFlush kc.2))) i = none
        rw [cacheFind_map, hfind]
        rfl
      have hst : ((Vector.flush ser s st).2.1) (indexToLookupKey s i) =
          st (indexToLookupKey s i) :=
        flush_no_touch_of_uninit ser s st i hi32 hkeys
          (fun cell hmem => absurd hmem (cacheFind_eq_none_not_mem hfind cell))
      have hload : loadEntry deser ((Vector.flush ser s st).2.1)
          (indexToLookupKey (Vector.flush ser s st).1 i) =
          loadEntry deser st (indexToLookupKey s i) := by
        unfold loadEntry
        rw [show indexToLookupKey (Vector.flush ser s st).1 i =
            indexToLookupKey s i from rfl]
        rw [hst]
      unfold Vector.getVal Vector.get
      rw [h2, hfind, hload]
      rcases loadEntry deser st (indexToLookupKey s i) with er | entry
      · rfl
      · rfl
    · -- initialized but never loaded cell: same shape, nodup pins it down
      have h2 : cacheFind ((Vector.flush ser s st).1).cache i = some none := by
        show cacheFind (s.cache.map (fun kc => (kc.1, cellAfterFlush kc.2))) i = some none
        rw [cacheFind_map, hfind]
        rfl
      have hst : ((Vector.flush ser s st).2.1) (indexToLookupKey s i) =
          st (indexToLookupKey s i) := by
        apply flush_no_touch_of_uninit ser s st i hi32 hkeys
        intro cell hmem
        exact Option.some.inj ((cacheFind_of_mem_nodup hnodup hmem).symm.trans hfind)
      have hload : loadEntry deser ((Vector.flush ser s st).2.1)
          (indexToLookupKey (Vector.flush ser s st).1 i) =
          loadEntry deser st (indexToLookupKey s i) := by
        unfold loadEntry
        rw [show indexToLookupKey (Vector.flush ser s st).1 i =
            indexToLookupKey s i from rfl]
        rw [hst]
      unfold Vector.getVal Vector.get
      rw [h2, hfind, hload]
      rcases loadEntry deser st (indexToLookupKey s i) with er | entry
      · rfl
      · rfl
    · -- cached value: preserved verbatim by the flush
      have h2 : cacheFind ((Vector.flush ser s st).1).cache i =
          some (some ⟨e.value, .Cached⟩) := by
        show cacheFind (s.cache.map (fun kc => (kc.1, cellAfterFlush kc.2))) i =
          some (some ⟨e.value, .Cached⟩)
        rw [cacheFind_map, hfind]
        rfl
      unfold Vector.getVal
      rw [get_hit deser _ _ i ⟨e.value, .Cached⟩ h2, get_hit deser s st i e hfind]
      rfl

/-- C6 witness: a vector with one modified slot over the empty store. -/
theorem c6_witness :
    (Vector.flush serNat
      (Vector.flush serNat (⟨1, [118], [(0, some ⟨some 5, .Modified⟩)]⟩ : Vector Nat) st0).1
      ((Vector.flush serNat (⟨1, [118], [(0, some ⟨some 5, .Modified⟩)]⟩ : Vector Nat) st0).2.1)).2.2 = [] ∧
    ∀ i, i < 4294967296 →
      Vector.getVal deserNat
        (Vector.flush serNat (⟨1, [118], [(0, some ⟨some 5, .Modified⟩)]⟩ : Vector Nat) st0).1
        ((Vector.flush serNat (⟨1, [118], [(0, some ⟨some 5, .Modified⟩)]⟩ : Vector Nat) st0).2.1) i =
      Vector.getVal deserNat (⟨1, [118], [(0, some ⟨some 5, .Modified⟩)]⟩ : Vector Nat) st0 i :=
  c6_flush_idempotent serNat deserNat ⟨1, [118], [(0, some ⟨some 5, .Modified⟩)]⟩ st0
    (by decide) (by decide)

/-! ### C7: swap_remove correctness -/

theorem ok_bind {ε α β : Type} (a : α) (f : α → Except ε β) :
    (Except.ok a : Except ε α) >>= f = f a := rfl

theorem cacheSlotVal_insert_ne {T : Type} (deser : Bytes → Option T)
    (pfx : Bytes) (c : Cache T) (st : Store) (i j : Nat) (v : Cell T)
    (h : j ≠ i) :
    cacheSlotVal deser pfx (cacheInsert c i v) st j =
      cacheSlotVal deser pfx c st j := by
  unfold cacheSlotVal
  rw [cacheFind_insert_ne c i j v h]

theorem cacheSlotVal_insert_entry {T : Type} (deser : Bytes → Option T)
    (pfx : Bytes) (c : Cache T) (st : Store) (i : Nat) (e : CacheEntry T) :
    cacheSlotVal deser pfx (cacheInsert c i (some e)) st i = e.value := by
  unfold cacheSlotVal
  rw [cacheFind_insert_self]

/-- When the slot observably holds a value, `get_mut_inner(i).replace(nv)`
succeeds, returns that value, and installs `Modified nv`. -/
theorem replaceAt_spec {T : Type} (deser : Bytes → Option T) (s : Vector T)
    (st : Store) (i : Nat) (nv : Option T)
    (hsome : (Vector.slotVal deser s st i).isSome) :
    ∃ effs, Vector.replaceAt deser s st i nv =
      .ok (Vector.slotVal deser s st i,
        { s with cache := cacheInsert s.cache i (some ⟨nv, .Modified⟩) }, effs) := by
  rcases hfind : cacheFind s.cache i with _ | (_ | e)
  · have hsv : Vector.slotVal deser s st i =
        (st (indexToLookupKey s i)).bind deser := by
      unfold Vector.slotVal cacheSlotVal
      rw [hfind]
      rfl
    rcases hst : st (indexToLookupKey s i) with _ | bs
    · rw [hsv, hst] at hsome
      simp at hsome
    · rcases hdes : deser bs with _ | v
      · rw [hsv, hst] at hsome
        simp [hdes] at hsome
      · have hle : loadEntry deser st (indexToLookupKey s i) =
            .ok (CacheEntry.newCached (some v)) := by
          unfold loadEntry
          simp only [hst, hdes]
        refine ⟨[.read (indexToLookupKey s i)], ?_⟩
        unfold Vector.replaceAt
        rw [hfind, hle]
        simp [CacheEntry.replaceValue, CacheEntry.newCached, hsv, hst, hdes]
  · have hsv : Vector.slotVal deser s st i =
        (st (indexToLookupKey s i)).bind deser := by
      unfold Vector.slotVal cacheSlotVal
      rw [hfind]
      rfl
    rcases hst : st (indexToLookupKey s i) with _ | bs
    · rw [hsv, hst] at hsome
      simp at hsome
    · rcases hdes : deser bs with _ | v
      · rw [hsv, hst] at hsome
        simp [hdes] at hsome
      · have hle : loadEntry deser st (indexToLookupKey s i) =
            .ok (CacheEntry.newCached (some v)) := by
          unfold loadEntry
          simp only [hst, hdes]
        refine ⟨[.read (indexToLookupKey s i)], ?_⟩
        unfold Vector.replaceAt
        rw [hfind, hle]
        simp [CacheEntry.replaceValue, CacheEntry.newCached, hsv, hst, hdes]
  · have hsv : Vector.slotVal deser s st i = e.value := by
      unfold Vector.slotVal cacheSlotVal
      rw [hfind]
    refine ⟨[], ?_⟩
    rw [hsv]
    exact replaceAt_hit deser s st i nv e hfind

/-- C7: on a non-empty vector in which every in-range slot observably
holds a value, `swap_remove(i)` (for `i < len`) returns the value at `i`,
decrements the length by exactly one, and afterwards position `i` holds
the former last value while every other in-range position is unchanged. -/
theorem c7_swap_remove_spec {T : Type} (deser : Bytes → Option T)
    (s : Vector T) (st : Store) (i : Nat)
    (hi : i < s.len)
    (hvals : ∀ j, j < s.len → (Vector.slotVal deser s st j).isSome) :
    ∃ r s' effs, Vector.swapRemove deser s st i = .ok (r, s', effs) ∧
      some r = Vector.slotVal deser s st i ∧
      s'.len = s.len - 1 ∧
      ∀ j, j < s.len - 1 →
        Vector.slotVal deser s' st j =
          if j = i then Vector.slotVal deser s st (s.len - 1)
          else Vector.slotVal deser s st j := by
  have hlen0 : ¬ (s.len = 0) := by omega
  have hb : s.len - 1 < s.len := by omega
  rcases Option.isSome_iff_exists.1 (hvals i hi) with ⟨vi, hvi⟩
  rcases Option.isSome_iff_exists.1 (hvals (s.len - 1) hb) with ⟨vb, hvb⟩
  by_cases hib : i = s.len - 1
  · -- removing the last element: swap short-circuits, pop does the work
    subst hib
    rcases replaceAt_spec deser (⟨s.len - 1, s.pfx, s.cache⟩ : Vector T) st
        (s.len - 1) none (hvals (s.len - 1) hb) with ⟨f2, hra⟩
    rw [show Vector.slotVal deser (⟨s.len - 1, s.pfx, s.cache⟩ : Vector T) st (s.len - 1) =
        some vi from hvi] at hra
    have hpop : Vector.pop deser s st =
        .ok (some vi, ⟨s.len - 1, s.pfx,
          cacheInsert s.cache (s.len - 1) (some ⟨none, .Modified⟩)⟩, f2) := by
      unfold Vector.pop
      rw [if_neg hlen0]
      exact hra
    have hswap : Vector.swap deser s st (s.len - 1) (s.len - 1) = .ok (s, []) := by
      unfold Vector.swap
      rw [if_neg (by omega), if_pos rfl]
    refine ⟨vi, ⟨s.len - 1, s.pfx,
      cacheInsert s.cache (s.len - 1) (some ⟨none, .Modified⟩)⟩, [] ++ f2, ?_,
      hvi.symm, rfl, ?_⟩
    · unfold Vector.swapRemove
      rw [if_neg hlen0]
      simp only [hswap, ok_bind, hpop]
    · intro j hj
      have hjb : j ≠ s.len - 1 := by omega
      rw [if_neg hjb]
      show cacheSlotVal deser s.pfx
        (cacheInsert s.cache (s.len - 1) (some ⟨none, .Modified⟩)) st j =
        Vector.slotVal deser s st j
      rw [cacheSlotVal_insert_ne deser s.pfx s.cache st (s.len - 1) j
        (some ⟨none, .Modified⟩) hjb]
      rfl
  · -- general case: three replaces exchange the slots, then pop
    have hbi : s.len - 1 ≠ i := fun hh => hib hh.symm
    rcases replaceAt_spec deser s st i none (hvals i hi) with ⟨f1, hr1⟩
    rw [hvi] at hr1
    have hsome2 : (Vector.slotVal deser
        (⟨s.len, s.pfx, cacheInsert s.cache i (some ⟨none, .Modified⟩)⟩ : Vector T)
        st (s.len - 1)).isSome := by
      show (cacheSlotVal deser s.pfx
        (cacheInsert s.cache i (some ⟨none, .Modified⟩)) st (s.len - 1)).isSome
      rw [cacheSlotVal_insert_ne deser s.pfx s.cache st i (s.len - 1)
        (some ⟨none, .Modified⟩) hbi]
      exact hvals (s.len - 1) hb
    rcases replaceAt_spec deser
        (⟨s.len, s.pfx, cacheInsert s.cache i (some ⟨none, .Modified⟩)⟩ : Vector T)
        st (s.len - 1) (some vi) hsome2 with ⟨f2, hr2⟩
    rw [show Vector.slotVal deser
        (⟨s.len, s.pfx, cacheInsert s.cache i (some ⟨none, .Modified⟩)⟩ : Vector T)
        st (s.len - 1) = some vb by
      show cacheSlotVal deser s.pfx
        (cacheInsert s.cache i (some ⟨none, .Modified⟩)) st (s.len - 1) = some vb
      rw [cacheSlotVal_insert_ne deser s.pfx s.cache st i (s.len - 1)
        (some ⟨none, .Modified⟩) hbi]
      exact hvb] at hr2
    have hfind3 : cacheFind
        (cacheInsert (cacheInsert s.cache i (some ⟨none, .Modified⟩))
          (s.len - 1) (some ⟨some vi, .Modified⟩)) i =
        some (some ⟨none, .Modified⟩) := by
      rw [cacheFind_insert_ne _ (s.len - 1) i _ hib]
      exact cacheFind_insert_self _ _ _
    have hr3 := replaceAt_hit deser
      (⟨s.len, s.pfx, cacheInsert (cacheInsert s.cache i (some ⟨none, .Modified⟩))
        (s.len - 1) (some ⟨some vi, .Modified⟩)⟩ : Vector T)
      st i (some vb) ⟨none, .Modified⟩ hfind3
    have hswap : Vector.swap deser s st i (s.len - 1) =
        .ok (⟨s.len, s.pfx,
          cacheInsert (cacheInsert (cacheInsert s.cache i (some ⟨none, .Modified⟩))
            (s.len - 1) (some ⟨some vi, .Modified⟩)) i (some ⟨some vb, .Modified⟩)⟩,
          f1 ++ f2 ++ []) := by
      unfold Vector.swap
      rw [if_neg (by omega), if_neg hib]
      simp only [hr1, ok_bind, hr2, hr3]
    have hfind4 : cacheFind
        (cacheInsert (cacheInsert (cacheInsert s.cache i (some ⟨none, .Modified⟩))
          (s.len - 1) (some ⟨some vi, .Modified⟩)) i (some ⟨some vb, .Modified⟩))
        (s.len - 1) = some (some ⟨some vi, .Modified⟩) := by
      rw [cacheFind_insert_ne _ i (s.len - 1) _ hbi]
      exact cacheFind_insert_self _ _ _
    have hpop : Vector.pop deser
        (⟨s.len, s.pfx,
          cacheInsert (cacheInsert (cacheInsert s.cache i (some ⟨none, .Modified⟩))
            (s.len - 1) (some ⟨some vi, .Modified⟩)) i
            (some ⟨some vb, .Modified⟩)⟩ : Vector T) st =
        .ok (some vi, ⟨s.len - 1, s.pfx,
          cacheInsert (cacheInsert (cacheInsert (cacheInsert s.cache i
            (some ⟨none, .Modified⟩)) (s.len - 1) (some ⟨some vi, .Modified⟩)) i
            (some ⟨some vb, .Modified⟩)) (s.len - 1) (some ⟨none, .Modified⟩)⟩,
          []) := by
      unfold Vector.pop
      rw [if_neg hlen0]
      exact replaceAt_hit deser
        (⟨s.len - 1, s.pfx,
          cacheInsert (cacheInsert (cacheInsert s.cache i (some ⟨none, .Modified⟩))
            (s.len - 1) (some ⟨some vi, .Modified⟩)) i
            (some ⟨some vb, .Modified⟩)⟩ : Vector T)
        st (s.len - 1) none ⟨some vi, .Modified⟩ hfind4
    refine ⟨vi, ⟨s.len - 1, s.pfx,
      cacheInsert (cacheInsert (cacheInsert (cacheInsert s.cache i
        (some ⟨none, .Modified⟩)) (s.len - 1) (some ⟨some vi, .Modified⟩)) i
        (some ⟨some vb, .Modified⟩)) (s.len - 1) (some ⟨none, .Modified⟩)⟩,
      (f1 ++ f2 ++ []) ++ [], ?_, hvi.symm, rfl, ?_⟩
    · unfold Vector.swapRemove
      rw [if_neg hlen0]
      simp only [hswap, ok_bind, hpop]
    · intro j hj
      have hjb : j ≠ s.len - 1 := by omega
      by_cases hji : j = i
      · rw [if_pos hji, hji]
        show cacheSlotVal deser s.pfx
          (cacheInsert (cacheInsert (cacheInsert (cacheInsert s.cache i
            (some ⟨none, .Modified⟩)) (s.len - 1) (some ⟨some vi, .Modified⟩)) i
            (some ⟨some vb, .Modified⟩)) (s.len - 1) (some ⟨none, .Modified⟩)) st i =
          Vector.slotVal deser s st (s.len - 1)
        rw [cacheSlotVal_insert_ne deser s.pfx _ st (s.len - 1) i
          (some ⟨none, .Modified⟩) hib]
        rw [cacheSlotVal_insert_entry deser s.pfx _ st i ⟨some vb, .Modified⟩]
        rw [hvb]
      · rw [if_neg hji]
        show cacheSlotVal deser s.pfx
          (cacheInsert (cacheInsert (cacheInsert (cacheInsert s.cache i
            (some ⟨none, .Modified⟩)) (s.len - 1) (some ⟨some vi, .Modified⟩)) i
            (some ⟨some vb, .Modified⟩)) (s.len - 1) (some ⟨none, .Modified⟩)) st j =
          Vector.slotVal deser s st j
        rw [cacheSlotVal_insert_ne deser s.pfx _ st (s.len - 1) j _ hjb]
        rw [cacheSlotVal_insert_ne deser s.pfx _ st i j _ hji]
        rw [cacheSlotVal_insert_ne deser s.pfx _ st (s.len - 1) j _ hjb]
        rw [cacheSlotVal_insert_ne deser s.pfx _ st i j _ hji]
        rfl

/-- C7 witness: swap-removing index 0 of the two-element vector
`[10, 20]` (both slots cached). -/
theorem c7_witness :
    (0 : Nat) < (⟨2, [118], [(0, some ⟨some 10, .Cached⟩), (1, some ⟨some 20, .Cached⟩)]⟩ : Vector Nat).len ∧
    (∃ r s' effs,
      Vector.swapRemove deserNat
        (⟨2, [118], [(0, some ⟨some 10, .Cached⟩), (1, some ⟨some 20, .Cached⟩)]⟩ : Vector Nat)
        st0 0 = .ok (r, s', effs) ∧
      some r = Vector.slotVal deserNat
        (⟨2, [118], [(0, some ⟨some 10, .Cached⟩), (1, some ⟨some 20, .Cached⟩)]⟩ : Vector Nat) st0 0 ∧
      s'.len = 2 - 1 ∧
      ∀ j, j < 2 - 1 →
        Vector.slotVal deserNat s' st0 j =
          if j = 0 then Vector.slotVal deserNat
            (⟨2, [118], [(0, some ⟨some 10, .Cached⟩), (1, some ⟨some 20, .Cached⟩)]⟩ : Vector Nat) st0 (2 - 1)
          else Vector.slotVal deserNat
            (⟨2, [118], [(0, some ⟨some 10, .Cached⟩), (1, some ⟨some 20, .Cached⟩)]⟩ : Vector Nat) st0 j) :=
  ⟨by decide,
   c7_swap_remove_spec deserNat
     ⟨2, [118], [(0, some ⟨some 10, .Cached⟩), (1, some ⟨some 20, .Cached⟩)]⟩
     st0 0 (by decide) (by decide)⟩

/-! ### C3: no store key at or beyond the length after a flush -/

theorem error_bind {ε α β : Type} (e : ε) (f : α → Except ε β) :
    (Except.error e : Except ε α) >>= f = .error e := rfl

theorem Jinv_insert {T : Type} {pfx : Bytes} {s : Vector T} {st : Store}
    (hJ : Jinv pfx s st) (i : Nat) (hi : i < s.len) (cell : CacheEntry T) :
    Jinv pfx { s with cache := cacheInsert s.cache i (some cell) } st := by
  obtain ⟨h1, h2, h3, h4, h5⟩ := hJ
  have h2' : s.len ≤ 4294967295 := h2
  refine ⟨h1, h2, ?_, ?_, ?_⟩
  · intro kc hkc
    rcases mem_cacheInsert.1 hkc with rfl | ⟨hmem, _⟩
    · show i < 4294967296
      omega
    · exact h3 kc hmem
  · intro kc hkc e hlen hcell
    have hlen' : s.len ≤ kc.1 := hlen
    rcases mem_cacheInsert.1 hkc with rfl | ⟨hmem, _⟩
    · exact absurd hlen' (by simp only; omega)
    · exact h4 kc hmem e hlen' hcell
  · intro i2 hi32 hlen2 hst2
    have hlen2' : s.len ≤ i2 := hlen2
    rcases h5 i2 hi32 hlen2' hst2 with ⟨e, hfind, hv, hstt⟩
    refine ⟨e, ?_, hv, hstt⟩
    rw [cacheFind_insert_ne s.cache i i2 _ (by omega)]
    exact hfind

theorem Jinv_push {T : Type} {pfx : Bytes} {s : Vector T} {st : Store}
    (hJ : Jinv pfx s st) (v : T) (hmax : s.len < UMAX) :
    Jinv pfx ⟨s.len + 1, s.pfx,
      cacheInsert s.cache s.len (some ⟨some v, .Modified⟩)⟩ st := by
  obtain ⟨h1, h2, h3, h4, h5⟩ := hJ
  have hm : s.len < 4294967295 := hmax
  refine ⟨h1, by show s.len + 1 ≤ UMAX; omega, ?_, ?_, ?_⟩
  · intro kc hkc
    rcases mem_cacheInsert.1 hkc with rfl | ⟨hmem, _⟩
    · show s.len < 4294967296
      omega
    · exact h3 kc hmem
  · intro kc hkc e hlen hcell
    have hlen' : s.len + 1 ≤ kc.1 := hlen
    rcases mem_cacheInsert.1 hkc with rfl | ⟨hmem, hne⟩
    · exact absurd hlen' (by simp only; omega)
    · exact h4 kc hmem e (by omega) hcell
  · intro i2 hi32 hlen2 hst2
    have hlen2' : s.len + 1 ≤ i2 := hlen2
    rcases h5 i2 hi32 (by omega) hst2 with ⟨e, hfind, hv, hstt⟩
    refine ⟨e, ?_, hv, hstt⟩
    rw [cacheFind_insert_ne s.cache s.len i2 _ (by omega)]
    exact hfind

theorem Jinv_pop {T : Type} {pfx : Bytes} {s : Vector T} {st : Store}
    (hJ : Jinv pfx s st) (h0 : 0 < s.len) :
    Jinv pfx ⟨s.len - 1, s.pfx,
      cacheInsert s.cache (s.len - 1) (some ⟨none, .Modified⟩)⟩ st := by
  obtain ⟨h1, h2, h3, h4, h5⟩ := hJ
  have h2' : s.len ≤ 4294967295 := h2
  refine ⟨h1, Nat.le_trans (Nat.sub_le s.len 1) h2, ?_, ?_, ?_⟩
  · intro kc hkc
    rcases mem_cacheInsert.1 hkc with rfl | ⟨hmem, _⟩
    · show s.len - 1 < 4294967296
      omega
    · exact h3 kc hmem
  · intro kc hkc e hlen hcell
    have hlen' : s.len - 1 ≤ kc.1 := hlen
    rcases mem_cacheInsert.1 hkc with rfl | ⟨hmem, hne⟩
    · cases hcell
      rfl
    · exact h4 kc hmem e (by omega) hcell
  · intro i2 hi32 hlen2 hst2
    have hlen2' : s.len - 1 ≤ i2 := hlen2
    by_cases hieq : i2 = s.len - 1
    · subst hieq
      exact ⟨⟨none, .Modified⟩, cacheFind_insert_self _ _ _, rfl, rfl⟩
    · rcases h5 i2 hi32 (by omega) hst2 with ⟨e, hfind, hv, hstt⟩
      refine ⟨e, ?_, hv, hstt⟩
      rw [cacheFind_insert_ne s.cache (s.len - 1) i2 _ hieq]
      exact hfind

/-- A flush write effect pins down both the key and that the flushed
cell held a present value. -/
theorem write_in_cellFlushEffs {T : Type} {ser : T → Bytes} {pfx : Bytes}
    {kc : Nat × Cell T} {K b : Bytes}
    (h : Eff.write K b ∈ cellFlushEffs ser pfx kc) :
    K = pfx ++ toLe4 kc.1 ∧
    ∃ e, kc.2 = some e ∧ ∃ v, e.value = some v := by
  unfold cellFlushEffs at h
  rcases kc with ⟨k, _ | e0⟩
  · simp at h
  · simp only at h
    by_cases hst : e0.state = EntryState.Modified
    · rw [if_pos hst] at h
      rcases hv : e0.value with _ | v
      · rw [hv] at h
        simp at h
      · rw [hv] at h
        simp at h
        exact ⟨h.1, e0, rfl, v, hv⟩
    · rw [if_neg hst] at h
      simp at h

/-- Under the invariant, flushing leaves the store empty at every key at
or beyond the length. -/
theorem flush_clears_beyond {T : Type} (ser : T → Bytes) {pfx : Bytes}
    {s : Vector T} {st : Store} (hJ : Jinv pfx s st) (i : Nat)
    (hi32 : i < 4294967296) (hlen : s.len ≤ i) :
    (Vector.flush ser s st).2.1 (pfx ++ toLe4 i) = none := by
  obtain ⟨h1, h2, h3, h4, h5⟩ := hJ
  show (flushEffs ser s).foldl applyEff st (pfx ++ toLe4 i) = none
  apply foldl_applyEff_none
  · intro e he b heq
    subst heq
    rcases mem_flushEffs he with ⟨⟨k, cell⟩, hkc, hcm⟩
    rcases write_in_cellFlushEffs hcm with ⟨hK, e0, hcell, v, hval⟩
    have hki : i = k := by
      apply key_inj pfx hi32 (h3 _ hkc)
      rw [hK, h1]
    subst hki
    have := h4 _ hkc e0 hlen hcell
    rw [hval] at this
    exact absurd this (by simp)
  · by_cases hstK : st (pfx ++ toLe4 i) = none
    · exact Or.inl hstK
    · right
      rcases h5 i hi32 hlen hstK with ⟨e, hfind, hv, hstate⟩
      have hmem := cacheFind_mem hfind
      have hce : cellFlushEffs ser s.pfx (i, some e) =
          [Eff.remove (pfx ++ toLe4 i)] := by
        unfold cellFlushEffs
        simp only
        rw [if_pos hstate, hv, h1]
      show Eff.remove (pfx ++ toLe4 i) ∈ flushEffs ser s
      unfold flushEffs
      refine List.mem_flatten.2 ⟨_, List.mem_map_of_mem _ hmem, ?_⟩
      rw [hce]
      exact List.mem_singleton.2 rfl

theorem Jinv_flush {T : Type} (ser : T → Bytes) {pfx : Bytes} {s : Vector T}
    {st : Store} (hJ : Jinv pfx s st) :
    Jinv pfx (Vector.flush ser s st).1 ((Vector.flush ser s st).2.1) := by
  obtain ⟨h1, h2, h3, h4, _⟩ := id hJ
  refine ⟨h1, h2, ?_, ?_, ?_⟩
  · intro kc hkc
    rcases List.mem_map.1 hkc with ⟨kc0, hkc0, rfl⟩
    exact h3 kc0 hkc0
  · intro kc hkc e hlen hcell
    rcases List.mem_map.1 hkc with ⟨kc0, hkc0, rfl⟩
    rcases kc0 with ⟨k0, _ | e0⟩
    · exact absurd hcell (by simp [cellAfterFlush])
    · simp only [cellAfterFlush, Option.some.injEq] at hcell
      have := h4 _ hkc0 e0 hlen rfl
      rw [← hcell]
      exact this
  · intro i2 hi32 hlen2 hst2
    exact absurd (flush_clears_beyond ser hJ i2 hi32 hlen2) hst2

/-- Complete case analysis of `get_mut_inner(i).replace(nv)`: it either
aborts (deserialization failure) or installs `Modified nv`, returning
the previously observable value. -/
theorem replaceAt_cases {T : Type} (deser : Bytes → Option T) (s : Vector T)
    (st : Store) (i : Nat) (nv : Option T) :
    (∃ er, Vector.replaceAt deser s st i nv = .error er) ∨
    (∃ old effs, Vector.replaceAt deser s st i nv =
        .ok (old, { s with cache := cacheInsert s.cache i (some ⟨nv, .Modified⟩) }, effs) ∧
      ((∃ e, cacheFind s.cache i = some (some e) ∧ old = e.value) ∨
       ((cacheFind s.cache i = none ∨ cacheFind s.cache i = some none) ∧
        old = (st (indexToLookupKey s i)).bind deser))) := by
  rcases hfind : cacheFind s.cache i with _ | (_ | e)
  · rcases hst : st (indexToLookupKey s i) with _ | bs
    · right
      refine ⟨none, [.read (indexToLookupKey s i)], ?_, Or.inr ⟨Or.inl rfl, rfl⟩⟩
      unfold Vector.replaceAt
      rw [hfind]
      unfold loadEntry
      rw [hst]
      rfl
    · rcases hdes : deser bs with _ | v
      · left
        refine ⟨.hostAbort errElementDeserialization, ?_⟩
        unfold Vector.replaceAt
        rw [hfind]
        unfold loadEntry
        simp only [hst, hdes]
      · right
        refine ⟨some v, [.read (indexToLookupKey s i)], ?_,
          Or.inr ⟨Or.inl rfl, hdes.symm⟩⟩
        unfold Vector.replaceAt
        rw [hfind]
        unfold loadEntry
        simp only [hst, hdes]
        rfl
  · rcases hst : st (indexToLookupKey s i) with _ | bs
    · right
      refine ⟨none, [.read (indexToLookupKey s i)], ?_, Or.inr ⟨Or.inr rfl, rfl⟩⟩
      unfold Vector.replaceAt
      rw [hfind]
      unfold loadEntry
      rw [hst]
      rfl
    · rcases hdes : deser bs with _ | v
      · left
        refine ⟨.hostAbort errElementDeserialization, ?_⟩
        unfold Vector.replaceAt
        rw [hfind]
        unfold loadEntry
        simp only [hst, hdes]
      · right
        refine ⟨some v, [.read (indexToLookupKey s i)], ?_,
          Or.inr ⟨Or.inr rfl, hdes.symm⟩⟩
        unfold Vector.replaceAt
        rw [hfind]
        unfold loadEntry
        simp only [hst, hdes]
        rfl
  · right
    refine ⟨e.value, [], ?_, Or.inl ⟨e, rfl, rfl⟩⟩
    exact replaceAt_hit deser s st i nv e hfind

/-- A successful `swap` preserves the invariant and the length. -/
theorem swap_ok_J {T : Type} {deser : Bytes → Option T} {pfx : Bytes}
    {s : Vector T} {st : Store} {a b : Nat} {s2 : Vector T} {effs : List Eff}
    (hJ : Jinv pfx s st)
    (h : Vector.swap deser s st a b = .ok (s2, effs)) :
    Jinv pfx s2 st ∧ s2.len = s.len := by
  unfold Vector.swap at h
  by_cases hg : s.len ≤ a ∨ s.len ≤ b
  · rw [if_pos hg] at h
    exact absurd h (by simp)
  · rw [if_neg hg] at h
    push_neg at hg
    obtain ⟨ha, hb⟩ := hg
    by_cases hab : a = b
    · rw [if_pos hab] at h
      simp only [Except.ok.injEq, Prod.mk.injEq] at h
      obtain ⟨hs2, _⟩ := h
      subst hs2
      exact ⟨hJ, rfl⟩
    · rw [if_neg hab] at h
      rcases replaceAt_cases deser s st a none with ⟨er, he⟩ | ⟨o1, f1, he1, _⟩
      · simp [he, error_bind] at h
      · simp only [he1, ok_bind] at h
        rcases replaceAt_cases deser
            (⟨s.len, s.pfx, cacheInsert s.cache a (some ⟨none, .Modified⟩)⟩ : Vector T)
            st b o1 with ⟨er, he⟩ | ⟨o2, f2, he2, _⟩
        · simp [he, error_bind] at h
        · simp only [he2, ok_bind] at h
          rcases replaceAt_cases deser
              (⟨s.len, s.pfx, cacheInsert
                (cacheInsert s.cache a (some ⟨none, .Modified⟩)) b
                (some ⟨o1, .Modified⟩)⟩ : Vector T)
              st a o2 with ⟨er, he⟩ | ⟨o3, f3, he3, _⟩
          · simp [he, error_bind] at h
          · simp only [he3, ok_bind] at h
            simp only [Except.ok.injEq, Prod.mk.injEq] at h
            obtain ⟨hs2, _⟩ := h
            subst hs2
            refine ⟨?_, rfl⟩
            have J1 := Jinv_insert hJ a ha ⟨none, .Modified⟩
            have J2 := Jinv_insert J1 b hb ⟨o1, .Modified⟩
            exact Jinv_insert J2 a ha ⟨o2, .Modified⟩

/-- Every reachable state satisfies the invariant. -/
theorem Jinv_of_reach {T : Type} {ser : T → Bytes} {deser : Bytes → Option T}
    {pfx : Bytes} {s : Vector T} {st : Store}
    (h : Reach ser deser pfx s st) : Jinv pfx s st := by
  induction h with
  | init st0 h0 =>
    refine ⟨rfl, Nat.zero_le _, ?_, ?_, ?_⟩
    · intro kc hkc
      simp [Vector.new] at hkc
    · intro kc hkc e hlen hcell
      simp [Vector.new] at hkc
    · intro i hi32 hlen hst
      exact absurd (h0 i hi32) hst
  | step s st op s' st' hr hargs hrun ih =>
    cases op with
    | push v =>
      simp only [runOp] at hrun
      unfold Vector.push at hrun
      by_cases hmax : UMAX ≤ s.len
      · rw [if_pos hmax] at hrun
        simp [Except.map] at hrun
      · rw [if_neg hmax] at hrun
        rw [set_eq_of_lt (⟨s.len + 1, s.pfx, s.cache⟩ : Vector T) s.len v
          (Nat.lt_succ_self s.len)] at hrun
        simp only [Except.map, Except.ok.injEq, Prod.mk.injEq] at hrun
        obtain ⟨hs', hst'⟩ := hrun
        subst hs' hst'
        exact Jinv_push ih v (by omega)
    | pop =>
      simp only [runOp] at hrun
      unfold Vector.pop at hrun
      by_cases h0 : s.len = 0
      · rw [if_pos h0] at hrun
        simp only [Except.map, Except.ok.injEq, Prod.mk.injEq] at hrun
        obtain ⟨hs', hst'⟩ := hrun
        subst hs' hst'
        exact ih
      · rw [if_neg h0] at hrun
        rcases replaceAt_cases deser (⟨s.len - 1, s.pfx, s.cache⟩ : Vector T) st
            (s.len - 1) none with ⟨er, he⟩ | ⟨o1, f1, he1, _⟩
        · rw [he] at hrun
          simp [Except.map] at hrun
        · rw [he1] at hrun
          simp only [Except.map, Except.ok.injEq, Prod.mk.injEq] at hrun
          obtain ⟨hs', hst'⟩ := hrun
          subst hs' hst'
          exact Jinv_pop ih (by omega)
    | set i v =>
      simp only [runOp] at hrun
      by_cases hguard : s.len ≤ i
      · unfold Vector.set at hrun
        rw [if_pos hguard] at hrun
        simp [Except.map] at hrun
      · rw [set_eq_of_lt s i v (by omega)] at hrun
        simp only [Except.map, Except.ok.injEq, Prod.mk.injEq] at hrun
        obtain ⟨hs', hst'⟩ := hrun
        subst hs' hst'
        exact Jinv_insert ih i (by omega) ⟨some v, .Modified⟩
    | swapRemove i =>
      simp only [runOp] at hrun
      unfold Vector.swapRemove at hrun
      by_cases h0 : s.len = 0
      · rw [if_pos h0] at hrun
        simp [Except.map] at hrun
      · rw [if_neg h0] at hrun
        rcases hsw : Vector.swap deser s st i (s.len - 1) with er | r2
        · simp [hsw, error_bind, Except.map] at hrun
        · obtain ⟨s2, f2⟩ := r2
          obtain ⟨J2, hlen2⟩ := swap_ok_J ih hsw
          simp only [hsw, ok_bind] at hrun
          unfold Vector.pop at hrun
          by_cases h02 : s2.len = 0
          · exact absurd (hlen2.symm.trans h02) h0
          · rw [if_neg h02] at hrun
            rcases replaceAt_cases deser (⟨s2.len - 1, s2.pfx, s2.cache⟩ : Vector T)
                st (s2.len - 1) none with ⟨er, he⟩ | ⟨o1, f1, he1, _⟩
            · simp [he, error_bind, Except.map] at hrun
            · simp only [he1, ok_bind] at hrun
              rcases o1 with _ | ov
              · simp [Except.map] at hrun
              · simp only [Except.map, Except.ok.injEq, Prod.mk.injEq] at hrun
                obtain ⟨hs', hst'⟩ := hrun
                subst hs' hst'
                exact Jinv_pop J2 (by omega)
    | replace i v =>
      simp only [runOp] at hrun
      unfold Vector.replace at hrun
      rcases replaceAt_cases deser s st i (some v) with ⟨er, he⟩ | ⟨o1, f1, he1, hold⟩
      · rw [he] at hrun
        simp [Except.map] at hrun
      · rw [he1] at hrun
        rcases o1 with _ | ov
        · simp [Except.map] at hrun
        · simp only [Except.map, Except.ok.injEq, Prod.mk.injEq] at hrun
          obtain ⟨hs', hst'⟩ := hrun
          subst hs' hst'
          by_cases hlt : i < s.len
          · exact Jinv_insert ih i hlt ⟨some v, .Modified⟩
          · exfalso
            have hge : s.len ≤ i := by omega
            obtain ⟨h1, h2, h3, h4, h5⟩ := id ih
            rcases hold with ⟨e, hfind, hove⟩ | ⟨hmiss, hovb⟩
            · have hnone := h4 _ (cacheFind_mem hfind) e hge rfl
              exact absurd (hove.trans hnone) (by simp)
            · have hkey : st (indexToLookupKey s i) ≠ none := by
                intro hnone
                rw [hnone] at hovb
                simp at hovb
              have hkey' : st (pfx ++ toLe4 i) ≠ none := by
                rw [← h1]
                exact hkey
              rcases h5 i hargs hge hkey' with ⟨e, hfind, _, _⟩
              rcases hmiss with hm | hm
              · rw [hm] at hfind
                exact absurd hfind (by simp)
              · rw [hm] at hfind
                exact absurd hfind (by simp)
    | flush =>
      simp only [runOp] at hrun
      simp only [Except.ok.injEq, Prod.mk.injEq] at hrun
      obtain ⟨hs', hst'⟩ := hrun
      subst hs' hst'
      exact Jinv_flush ser ih

/-- C3 amended: along any successful run of
push/pop/set/swap_remove/replace/flush from a fresh vector — with no
`clear` — flushing leaves no store key `prefix ++ le_u32(i)` with
`i >= length` in the backing store. -/
theorem c3_no_beyond_len_keys_after_flush {T : Type} (ser : T → Bytes)
    (deser : Bytes → Option T) (pfx : Bytes) (s : Vector T) (st : Store)
    (h : Reach ser deser pfx s st) (i : Nat) (hi32 : i < 4294967296)
    (hlen : (Vector.flush ser s st).1.len ≤ i) :
    (Vector.flush ser s st).2.1 (pfx ++ toLe4 i) = none :=
  flush_clears_beyond ser (Jinv_of_reach h) i hi32 hlen

/-- C3 counterexample: run `push 7; flush; pop; clear` on a fresh vector
over the empty store.  The final step is a `clear`, the final length is
0, yet the store still holds the value under index 0's key: `clear` only
removes keys below the *current* length and discards the cached pending
removal that `pop` left behind. -/
theorem c3_counterexample :
    Vector.push (Vector.new [118] : Vector Nat) 7 = .ok c3s1 ∧
    Vector.flush serNat c3s1 st0 =
      (c3s2, c3st2, [.write [118, 0, 0, 0, 0] [7]]) ∧
    Vector.pop deserNat c3s2 c3st2 = .ok (some 7, c3s3, []) ∧
    Vector.clear c3s3 c3st2 = (c3s4, c3st2, []) ∧
    c3s4.len = 0 ∧
    c3st2 ([118] ++ toLe4 0) = some [7] :=
  ⟨rfl, rfl, rfl, rfl, rfl, rfl⟩

/-- C3 amended witness: the state reached by `push 7` from a fresh
vector is reachable, and flushing it leaves nothing in the store at
index 1 (the length). -/
theorem c3_witness :
    Reach serNat deserNat [118] c3s1 st0 ∧
    (Vector.flush serNat c3s1 st0).2.1 ([118] ++ toLe4 1) = none := by
  have hinit : Reach serNat deserNat [118] (Vector.new [118] : Vector Nat) st0 :=
    Reach.init st0 (fun i _ => rfl)
  have hreach : Reach serNat deserNat [118] c3s1 st0 :=
    Reach.step (Vector.new [118]) st0 (Op.push 7) c3s1 st0 hinit trivial rfl
  exact ⟨hreach,
    c3_no_beyond_len_keys_after_flush serNat deserNat [118] c3s1 st0 hreach 1
      (by decide) (by decide)⟩

end NearVec

